import Mathlib

/-!
# Verification development for `find-unused.mjs`

`find-unused.mjs` scans Cypress step-definition files for step-registration
calls (`Given`, `When`, ... `defineStep`), extracts each first-argument
literal, compiles regex literals and Cucumber-Expression string literals
to JavaScript `RegExp` matchers, extracts step lines from feature files,
and classifies every pattern as used / unused / skipped.

This file is a shallow embedding of that script.  Strings are modelled as
`List Char`; JavaScript `RegExp` values are modelled by an explicit regex
AST (`RegexNode`) together with a fuel-driven backtracking matcher `mrun`
that implements `RegExp.prototype.test` semantics (search from every start
position, `^`/`$` as positional assertions, optional case folding for the
`i` flag) for the regex feature subset this script can produce.  All
definitions are executable and kernel-reducible so concrete runs can be
settled by `decide`.
-/

namespace FindUnused

set_option maxRecDepth 10000

/-- JavaScript `\s` (the ASCII part plus NBSP), as used by `String.trim`,
by `\s` inside the produced regexes and by `split(/\s/)`. -/
def jsWs (c : Char) : Bool :=
  c == ' ' || c == '\t' || c == '\n' || c == '\r' || c == '\x0b' || c == '\x0c' || c == '\u00A0'

/-- ASCII letter, as matched by `[a-z]` under the `i` flag. -/
def isAsciiLetterB (c : Char) : Bool :=
  ('a' ≤ c && c ≤ 'z') || ('A' ≤ c && c ≤ 'Z')

/-- ASCII digit. -/
def isDigitB (c : Char) : Bool := '0' ≤ c && c ≤ '9'

/-- JavaScript word character `[A-Za-z0-9_]`, used by the `\b` assertion of
the step-registration regex. -/
def jsWordChar (c : Char) : Bool := isAsciiLetterB c || isDigitB c || c == '_'

/-- JavaScript line terminators, which `.` does not match. -/
def isLineTerm (c : Char) : Bool :=
  c == '\n' || c == '\r' || c == '\u2028' || c == '\u2029'

/-! ## Regex AST and matcher -/

/-- One element of a character class. -/
inductive ClassItem where
  | single (c : Char)
  | range (lo hi : Char)
  | pdigit            -- `\d`
  | pspace            -- `\s`
  | pword             -- `\w`
deriving DecidableEq, Repr

/-- AST for the JavaScript regex subset produced and consumed by the script.
Counted quantifiers, `+` and `?` are desugared by the parser, so the matcher
only needs these constructors. -/
inductive RegexNode where
  | rempty
  | rbol                                     -- `^`
  | reol                                     -- `$`
  | rany                                     -- `.`
  | rchar (c : Char)
  | rcls (neg : Bool) (items : List ClassItem)
  | rgroup (a : RegexNode)
  | rconcat (a b : RegexNode)
  | ralt (a b : RegexNode)
  | rstar (a : RegexNode)
deriving DecidableEq, Repr

/-- Does class item `it` match character `c` (no case folding)? -/
def classItemMatch (it : ClassItem) (c : Char) : Bool :=
  match it with
  | .single a => c == a
  | .range lo hi => lo ≤ c && c ≤ hi
  | .pdigit => isDigitB c
  | .pspace => jsWs c
  | .pword => jsWordChar c

/-- Positive class membership, folding case when `ci` is set (mirrors the
canonicalisation JavaScript applies under the `i` flag). -/
def clsHit (ci : Bool) (items : List ClassItem) (c : Char) : Bool :=
  items.any fun it =>
    classItemMatch it c || (ci && (classItemMatch it c.toLower || classItemMatch it c.toUpper))

/-- Full class match including negation. -/
def clsMatch (ci : Bool) (neg : Bool) (items : List ClassItem) (c : Char) : Bool :=
  if neg then !(clsHit ci items c) else clsHit ci items c

/-- Character comparison under optional case folding. -/
def chEq (ci : Bool) (a b : Char) : Bool :=
  if ci then a.toLower == b.toLower else a == b

/-- Fuel-driven backtracking matcher in continuation-passing style.
`mrun ci f node s i k` is `true` iff some match of `node` starting at
position `i` of `s` ends at a position `j` with `k j = true`, exploring
at most `f` levels of calls.  Star iterations that do not advance the
position are skipped, exactly as a JavaScript engine terminates empty
quantifier iterations.  The fuel only cuts infeasibly deep paths; every
use in this file supplies fuel exceeding the deepest possible path. -/
def mrun (ci : Bool) : Nat → RegexNode → List Char → Nat → (Nat → Bool) → Bool
  | 0, _, _, _, _ => false
  | f + 1, node, s, i, k =>
    match node with
    | .rempty => k i
    | .rbol => i == 0 && k i
    | .reol => i == s.length && k i
    | .rany =>
      match s[i]? with
      | some c => !isLineTerm c && k (i + 1)
      | none => false
    | .rchar c =>
      match s[i]? with
      | some c2 => chEq ci c c2 && k (i + 1)
      | none => false
    | .rcls neg items =>
      match s[i]? with
      | some c2 => clsMatch ci neg items c2 && k (i + 1)
      | none => false
    | .rgroup a => mrun ci f a s i k
    | .rconcat a b => mrun ci f a s i fun j => mrun ci f b s j k
    | .ralt a b => mrun ci f a s i k || mrun ci f b s i k
    | .rstar a => k i || mrun ci f a s i fun j => decide (i < j) && mrun ci f (.rstar a) s j k

/-- A compiled JavaScript regex: AST plus the only flag that matters for
`test` on a single pattern, the `i` flag. -/
structure JsRegex where
  node : RegexNode
  ignoreCase : Bool
deriving DecidableEq, Repr

/-- Number of AST nodes. -/
def nodeSize : RegexNode → Nat
  | .rempty | .rbol | .reol | .rany | .rchar _ | .rcls _ _ => 1
  | .rgroup a | .rstar a => nodeSize a + 1
  | .rconcat a b | .ralt a b => nodeSize a + nodeSize b + 1

/-- Fuel that strictly dominates the deepest possible call path of `mrun`:
along a path, positions never decrease and every fuel-consuming step either
descends the AST (at most `nodeSize node` consecutive times) or advances the
position (star unfolding requires strict progress). -/
def nodeFuel (node : RegexNode) (s : List Char) : Nat :=
  (s.length + 1) * (nodeSize node + 1) + 1

/-- `RegExp.prototype.test`: search for a match from every start position. -/
def mtest (r : JsRegex) (s : List Char) : Bool :=
  (List.range (s.length + 1)).any fun i =>
    mrun r.ignoreCase (nodeFuel r.node s) r.node s i fun _ => true

/-- `test` on a Lean `String`. -/
def reTest (r : JsRegex) (s : String) : Bool := mtest r s.data

/-- Does the regex match the whole string, start to end?  (Not an operation
of the script — used to state claims about full-line matching.) -/
def mFullMatch (r : JsRegex) (s : List Char) : Bool :=
  mrun r.ignoreCase (nodeFuel r.node s) r.node s 0 fun j => j == s.length

/-- Full match on a Lean `String`. -/
def reFullMatch (r : JsRegex) (s : String) : Bool := mFullMatch r s.data

/-! ## Regex parser

A recursive-descent parser from JavaScript regex source text to `RegexNode`,
covering the feature subset the script produces or consumes: literals,
escapes (`\d \s \S \w \W \D`, escaped punctuation, control escapes),
character classes with ranges, groups `(...)` and `(?:...)`, alternation,
anchors, `.`, and the quantifiers `* + ? {n} {n,} {n,m}` (desugared).
Constructs outside the subset make the parse fail, which the pipeline
treats like a `RegExp` constructor throw. -/

/-- `a{n}` prefix: `n` mandatory copies of `a`. -/
def repeatNode (a : RegexNode) : Nat → RegexNode
  | 0 => .rempty
  | n + 1 => .rconcat a (repeatNode a n)

/-- Up to `n` optional copies of `a` (for `{lo,hi}`). -/
def optIter (a : RegexNode) : Nat → RegexNode
  | 0 => .rempty
  | n + 1 => .ralt (.rconcat a (optIter a n)) .rempty

/-- Numeric value of a digit run. -/
def digitsVal (ds : List Char) : Nat :=
  ds.foldl (fun n c => n * 10 + (c.toNat - 48)) 0

/-- Scan the inside of a `{...}` quantifier (after the opening brace).
`none` means the braces are not a counted quantifier and the `{` is a
literal character; `some (lo, hi, rest)` returns the bounds, where
`hi = none` is `{lo}`, `hi = some none` is `{lo,}` and `hi = some (some m)`
is `{lo,m}`. -/
def scanBraceQuant (cs : List Char) : Option (Nat × Option (Option Nat) × List Char) :=
  let ds := cs.takeWhile isDigitB
  let rest := cs.drop ds.length
  if ds.isEmpty then none
  else
    match rest with
    | '}' :: r => some (digitsVal ds, none, r)
    | ',' :: r2 =>
      let ds2 := r2.takeWhile isDigitB
      let rest2 := r2.drop ds2.length
      match rest2 with
      | '}' :: r3 =>
        if ds2.isEmpty then some (digitsVal ds, some none, r3)
        else some (digitsVal ds, some (some (digitsVal ds2)), r3)
      | _ => none
    | _ => none

/-- Translate an escape `\c` in atom position. -/
def escAtom (c : Char) : Option RegexNode :=
  match c with
  | 'd' => some (.rcls false [.pdigit])
  | 'D' => some (.rcls true [.pdigit])
  | 's' => some (.rcls false [.pspace])
  | 'S' => some (.rcls true [.pspace])
  | 'w' => some (.rcls false [.pword])
  | 'W' => some (.rcls true [.pword])
  | 'n' => some (.rchar '\n')
  | 't' => some (.rchar '\t')
  | 'r' => some (.rchar '\r')
  | 'f' => some (.rchar '\x0c')
  | 'v' => some (.rchar '\x0b')
  | '0' => some (.rchar '\x00')
  | c => if isAsciiLetterB c || isDigitB c then none else some (.rchar c)

/-- Translate an escape `\c` inside a character class. -/
def escClassItem (c : Char) : Option ClassItem :=
  match c with
  | 'd' => some .pdigit
  | 's' => some .pspace
  | 'w' => some .pword
  | 'n' => some (.single '\n')
  | 't' => some (.single '\t')
  | 'r' => some (.single '\r')
  | 'f' => some (.single '\x0c')
  | 'v' => some (.single '\x0b')
  | '0' => some (.single '\x00')
  | c => if isAsciiLetterB c || isDigitB c then none else some (.single c)

/-- One raw element of a class body (before range formation). -/
def parseClassElem : List Char → Option (ClassItem × List Char)
  | '\\' :: c :: r => (escClassItem c).map (·, r)
  | '\\' :: [] => none
  | c :: r => some (.single c, r)
  | [] => none

/-- Class body after `[` / `[^`, up to the closing `]`. -/
def parseClassItems : Nat → List Char → Option (List ClassItem × List Char)
  | 0, _ => none
  | f + 1, cs =>
    match cs with
    | ']' :: r => some ([], r)
    | _ => do
      let (it, r1) ← parseClassElem cs
      match r1 with
      | '-' :: r2 =>
        if r2.head? == some ']' then do
          let (its, r3) ← parseClassItems f r2
          pure (it :: .single '-' :: its, r3)
        else
          match it with
          | .single lo => do
            let (it2, r3) ← parseClassElem r2
            match it2 with
            | .single hi =>
              if lo ≤ hi then do
                let (its, r4) ← parseClassItems f r3
                pure (.range lo hi :: its, r4)
              else none
            | _ => none
          | _ => none
      | _ => do
        let (its, r2) ← parseClassItems f r1
        pure (it :: its, r2)

mutual

/-- Alternation level. -/
def parseAlt : Nat → List Char → Option (RegexNode × List Char)
  | 0, _ => none
  | f + 1, cs => do
    let (n, r) ← parseSeq f cs
    match r with
    | '|' :: r2 => do
      let (n2, r3) ← parseAlt f r2
      pure (.ralt n n2, r3)
    | _ => pure (n, r)

/-- Concatenation level: a (possibly empty) run of quantified atoms. -/
def parseSeq : Nat → List Char → Option (RegexNode × List Char)
  | 0, _ => none
  | f + 1, cs =>
    match cs with
    | [] => some (.rempty, [])
    | '|' :: _ => some (.rempty, cs)
    | ')' :: _ => some (.rempty, cs)
    | _ => do
      let (a, r) ← parseAtomQ f cs
      let (b, r2) ← parseSeq f r
      pure (.rconcat a b, r2)

/-- An atom with its optional quantifier. -/
def parseAtomQ : Nat → List Char → Option (RegexNode × List Char)
  | 0, _ => none
  | f + 1, cs => do
    let (a, r) ← parseAtom f cs
    match r with
    | '*' :: r2 => pure (.rstar a, r2)
    | '+' :: r2 => pure (.rconcat a (.rstar a), r2)
    | '?' :: r2 => pure (.ralt a .rempty, r2)
    | '{' :: r2 =>
      match scanBraceQuant r2 with
      | none => pure (a, r)
      | some (lo, none, r3) => pure (repeatNode a lo, r3)
      | some (lo, some none, r3) => pure (.rconcat (repeatNode a lo) (.rstar a), r3)
      | some (lo, some (some m), r3) =>
        if lo ≤ m then pure (.rconcat (repeatNode a lo) (optIter a (m - lo)), r3)
        else none
    | _ => pure (a, r)

/-- A single atom. -/
def parseAtom : Nat → List Char → Option (RegexNode × List Char)
  | 0, _ => none
  | f + 1, cs =>
    match cs with
    | [] => none
    | '^' :: r => some (.rbol, r)
    | '$' :: r => some (.reol, r)
    | '.' :: r => some (.rany, r)
    | '(' :: '?' :: ':' :: r => do
      let (n, r2) ← parseAlt f r
      match r2 with
      | ')' :: r3 => pure (.rgroup n, r3)
      | _ => none
    | '(' :: '?' :: _ => none
    | '(' :: r => do
      let (n, r2) ← parseAlt f r
      match r2 with
      | ')' :: r3 => pure (.rgroup n, r3)
      | _ => none
    | '[' :: '^' :: r => do
      let (its, r2) ← parseClassItems (r.length + 1) r
      pure (.rcls true its, r2)
    | '[' :: r => do
      let (its, r2) ← parseClassItems (r.length + 1) r
      pure (.rcls false its, r2)
    | '\\' :: c :: r => (escAtom c).map (·, r)
    | '\\' :: [] => none
    | '*' :: _ => none
    | '+' :: _ => none
    | '?' :: _ => none
    | c :: r => some (.rchar c, r)

end

/-- Parse a whole regex source string; the parse must consume everything
(a stray `)` is a syntax error, as in JavaScript). -/
def parseRegex (src : List Char) : Option RegexNode := do
  let (n, r) ← parseAlt (4 * (src.length + 2)) src
  match r with
  | [] => pure n
  | _ => none

/-- Recognised JavaScript regex flag letters. -/
def flagOk (c : Char) : Bool :=
  c == 'd' || c == 'g' || c == 'i' || c == 'm' || c == 's' || c == 'u' || c == 'v' || c == 'y'

/-- No duplicated flags (duplicates make the `RegExp` constructor throw). -/
def noDupFlags : List Char → Bool
  | [] => true
  | c :: r => !r.contains c && noDupFlags r

/-- `tryBuildRegExp` from the script: `new RegExp(pattern, flags)` returning
`null` on a constructor throw (malformed pattern or bad flags). -/
def tryBuildRegExp (pattern flags : List Char) : Option JsRegex :=
  if flags.all flagOk && noDupFlags flags then
    (parseRegex pattern).map fun n => ⟨n, flags.contains 'i'⟩
  else none

/-! ## `cucumberExprToRegex` -/

/-- Backtick (written by code point to keep regex strings readable). -/
def bq : Char := Char.ofNat 96

/-- Single quote. -/
def sq : Char := Char.ofNat 39

/-- The `{string}` substitution value
`"([^"]*)"|'([^']*)'|` + backtick-quoted alternative (a three-way
top-level alternation, not wrapped in a group). -/
def stringParamVal : List Char :=
  ['"', '(', '[', '^', '"', ']', '*', ')', '"', '|',
   sq, '(', '[', '^', sq, ']', '*', ')', sq, '|',
   bq, '(', '[', '^', bq, ']', '*', ')', bq]

/-- The ordered parameter-type substitution table (the `map` object literal;
`Object.entries` iterates it in insertion order). -/
def paramMap : List (List Char × List Char) :=
  [("{int}".data, "(-?\\d+)".data),
   ("{float}".data, "(-?\\d+(?:[.,]\\d+)?)".data),
   ("{word}".data, "(\\S+)".data),
   ("{string}".data, stringParamVal),
   ("{bigint}".data, "(-?\\d+)".data),
   ("{byte}".data, "(-?\\d+)".data),
   ("{short}".data, "(-?\\d+)".data),
   ("{double}".data, "(-?\\d+(?:[.,]\\d+)?)".data),
   ("{biginteger}".data, "(-?\\d+)".data),
   ("{uuid}".data, "([0-9a-fA-F]{8}-(?:[0-9a-fA-F]{4}-){3}[0-9a-fA-F]{12})".data),
   ("{any}".data, "(.+)".data)]

/-- The character class of `/[.*+?^${}()|[\]\\]/g`: the metacharacters the
first escaping pass prefixes with a backslash.  Note it does not contain
`-` or `/`. -/
def spec1 : List Char :=
  ['.', '*', '+', '?', '^', '$', '{', '}', '(', ')', '|', '[', ']', '\\']

/-- The character class of `/[-\/\\^$*+?.()|[\]{}]/g`, used to escape a
substitution value before searching for it in the escaped string.  Unlike
`spec1` it also contains `-` and `/`. -/
def spec2 : List Char :=
  ['-', '/', '\\', '^', '$', '*', '+', '?', '.', '(', ')', '|', '[', ']', '{', '}']

/-- `s.replace(/[...]/g, "\\$&")`: prefix every character of the class with
a backslash. -/
def escWith (spec : List Char) (s : List Char) : List Char :=
  s.flatMap fun c => if spec.contains c then ['\\', c] else [c]

/-- `s.split(key).join(val)`: replace every (leftmost, non-overlapping)
occurrence of `key` by `val`.  Fuel-driven; callers pass `s.length + 1`,
which suffices since every step consumes at least one character. -/
def replAll (key val : List Char) : Nat → List Char → List Char
  | _, [] => []
  | 0, s => s
  | f + 1, c :: cs =>
    if !key.isEmpty && key.isPrefixOf (c :: cs) then
      val ++ replAll key val f ((c :: cs).drop key.length)
    else
      c :: replAll key val f cs

/-- `s.split(key).join(val)` with the fuel supplied. -/
def replaceAllStr (key val s : List Char) : List Char :=
  replAll key val (s.length + 1) s

/-- JavaScript `String.prototype.trim`. -/
def trimJs (s : List Char) : List Char :=
  ((s.dropWhile jsWs).reverse.dropWhile jsWs).reverse

/-- `s.replace(/\s+/g, "\\s+")`: collapse every run of whitespace into the
three characters `\s+`.  The boolean tracks whether the previous character
was part of a run. -/
def wsNorm : List Char → Bool → List Char
  | [], _ => []
  | c :: cs, prevWs =>
    if jsWs c then
      if prevWs then wsNorm cs true
      else '\\' :: 's' :: '+' :: wsNorm cs true
    else c :: wsNorm cs false

/-- `cucumberExprToRegex`: trim, substitute every parameter token, escape
all metacharacters, attempt to unescape the substitution values again,
normalise whitespace runs, and anchor. -/
def cucumberExprToRegex (expr : List Char) : List Char :=
  let s0 := trimJs expr
  let s1 := paramMap.foldl (fun s kv => replaceAllStr kv.1 kv.2 s) s0
  let s2 := escWith spec1 s1
  let s3 := paramMap.foldl (fun s kv => replaceAllStr (escWith spec2 kv.2) kv.2 s) s2
  let s4 := wsNorm s3 false
  '^' :: s4 ++ ['$']

/-- Compile an (already unquoted) expression body the way the script does:
`tryBuildRegExp(cucumberExprToRegex(inner), "i")`. -/
def exprMatcher (body : String) : Option JsRegex :=
  tryBuildRegExp (cucumberExprToRegex body.data) ['i']

/-! ## Declaration extraction -/

/-- `extractRegexLiteral`: match `lit` against `/^\/(.+)\/([a-z]*)$/i` and
return `(body, flags)`.  The greedy `.+` makes `body` run to the last `/`
whose suffix consists purely of ASCII letters; `.` cannot cross a line
terminator, and there must be at least one body character. -/
def extractRegexLiteral (lit : List Char) : Option (List Char × List Char) :=
  match lit with
  | '/' :: rest =>
    if rest.any isLineTerm then none
    else
      match rest.reverse.findIdx? (· == '/') with
      | none => none
      | some k =>
        let j := rest.length - 1 - k
        let body := rest.take j
        let flags := rest.drop (j + 1)
        if body.isEmpty then none
        else if flags.all isAsciiLetterB then some (body, flags)
        else none
  | _ => none

/-- One extracted step-definition pattern (`{ file, type, raw, regexp }`).
`raw` is the regex literal token, the unquoted expression body, or the
non-literal token respectively. -/
structure StepPattern where
  file : String
  ptype : String
  raw : List Char
  regexp : Option JsRegex
deriving DecidableEq, Repr

/-- The expression branches of `extractStepPatternsFromSource`: strip the
quotes, compile, and push only when compilation succeeded. -/
def exprPattern (raw : List Char) (file : String) : List StepPattern :=
  let inner := (raw.drop 1).dropLast
  match tryBuildRegExp (cucumberExprToRegex inner) ['i'] with
  | none => []
  | some re => [⟨file, "expr", inner, some re⟩]

/-- The body of the extraction loop for one trimmed first-argument token:
the regex / quoted-string / template-string / non-literal case split. -/
def processRaw (raw : List Char) (file : String) : List StepPattern :=
  if raw.head? == some '/' then
    let lit := raw.takeWhile fun c => !jsWs c
    match extractRegexLiteral lit with
    | none => []
    | some (body, flags) =>
      match tryBuildRegExp body flags with
      | none => []
      | some re => [⟨file, "regex", lit, some re⟩]
  else if (raw.head? == some sq && raw.getLast? == some sq) ||
          (raw.head? == some '"' && raw.getLast? == some '"') then
    exprPattern raw file
  else if raw.head? == some bq && raw.getLast? == some bq then
    exprPattern raw file
  else
    [⟨file, "unparsed", raw, none⟩]

/-! ## The step-registration search regex

`STEP_CALL_RE = /(?:\b(?:Given|When|Then|And|But|defineStep)\s*\(\s*)([^,]+)\s*,/g`
is modelled directly (not through the generic parser) because the script
uses its capture group and, being a `g` regex, its `lastIndex` state.
At a given start position the regex matches iff: the position is at a word
boundary, one of the keywords occurs there literally, optional whitespace
is followed by `(`, and a first comma exists strictly after at least one
further character; the capture is the text between the `(` (after optional
whitespace) and that comma — the script only ever uses its trimmed form,
and trimming commutes with the leading `\s*`, so the model captures the
whole parenthesis-to-comma region. -/

/-- The registration keywords, in the alternation's order (no keyword is a
prefix of another, so the order cannot matter). -/
def kwStrs : List (List Char) :=
  ["Given".data, "When".data, "Then".data, "And".data, "But".data, "defineStep".data]

/-- Keyword occurring literally at position `p`. -/
def matchKwAt (s : List Char) (p : Nat) : Option Nat :=
  kwStrs.findSome? fun kw => if kw.isPrefixOf (s.drop p) then some kw.length else none

/-- First position `≥ i` whose character is not JavaScript whitespace
(or the end of the string). -/
def skipWsFrom (s : List Char) : Nat → Nat → Nat
  | 0, i => i
  | f + 1, i =>
    match s[i]? with
    | some c => if jsWs c then skipWsFrom s f (i + 1) else i
    | none => i

/-- First index `≥ i` holding a comma. -/
def findCommaFrom (s : List Char) : Nat → Nat → Option Nat
  | 0, _ => none
  | f + 1, i =>
    match s[i]? with
    | some c => if c == ',' then some i else findCommaFrom s f (i + 1)
    | none => none

/-- The `\b` assertion before the keyword: position `p` is the start of the
string or is preceded by a non-word character (the keyword itself always
starts with a word character). -/
def wordBoundaryAt (s : List Char) (p : Nat) : Bool :=
  if p == 0 then true
  else
    match s[p - 1]? with
    | some c => !jsWordChar c
    | none => true

/-- Attempt to match `STEP_CALL_RE` at position `p`; returns the capture
region and the end position of the whole match (one past the comma). -/
def tryStepCallAt (s : List Char) (p : Nat) : Option (List Char × Nat) :=
  if wordBoundaryAt s p then
    match matchKwAt s p with
    | none => none
    | some kl =>
      let q := skipWsFrom s (s.length + 1) (p + kl)
      if s[q]? == some '(' then
        match findCommaFrom s (s.length + 1) (q + 1) with
        | none => none
        | some t =>
          if q + 1 < t then some ((s.drop (q + 1)).take (t - (q + 1)), t + 1)
          else none
      else none
  else none

/-- `STEP_CALL_RE.exec` scanning: first match at a start position `≥ p`. -/
def stepCallSearch (s : List Char) : Nat → Nat → Option (List Char × Nat)
  | 0, _ => none
  | f + 1, p =>
    if s.length ≤ p then none
    else
      match tryStepCallAt s p with
      | some r => some r
      | none => stepCallSearch s f (p + 1)

/-! ## `extractStepPatternsFromSource` -/

/-- The `while ((m = STEP_CALL_RE.exec(src)) !== null)` loop, with the
regex's `lastIndex` threaded explicitly: a successful `exec` leaves
`lastIndex` at the end of the match, a failed one resets it to `0`.
Returns the extracted patterns and the final `lastIndex`. -/
def extractLoop (s : List Char) (file : String) : Nat → Nat → List StepPattern × Nat
  | 0, li => ([], li)
  | f + 1, li =>
    match stepCallSearch s (s.length + 1) li with
    | none => ([], 0)
    | some (cap, li2) =>
      let ps := processRaw (trimJs cap) file
      let (rest, fin) := extractLoop s file f li2
      (ps ++ rest, fin)

/-- `extractStepPatternsFromSource` starting from an arbitrary `lastIndex`
(the state the shared global regex was left in). -/
def extractS (src : String) (file : String) (li : Nat) : List StepPattern × Nat :=
  extractLoop src.data file (src.data.length + 1) li

/-- `extractStepPatternsFromSource` as the script calls it (the global
regex's `lastIndex` is `0` before the first use). -/
def extractStepPatternsFromSource (src : String) (file : String) : List StepPattern :=
  (extractS src file 0).1

/-! ## Feature scanning -/

/-- `featureText.split(/\r?\n/)`: split on `\n` or `\r\n` (a lone `\r` is
kept inside the line). -/
def splitLinesJs : List Char → List Char → List (List Char)
  | [], acc => [acc.reverse]
  | '\r' :: '\n' :: cs, acc => acc.reverse :: splitLinesJs cs []
  | '\n' :: cs, acc => acc.reverse :: splitLinesJs cs []
  | c :: cs, acc => splitLinesJs cs (c :: acc)

/-- The feature-step keywords of `FEATURE_STEP_RE`. -/
def featureKws : List (List Char) :=
  ["Given".data, "When".data, "Then".data, "And".data, "But".data]

/-- Case-insensitive literal prefix test (the `i` flag on keywords). -/
def startsWithCi (kw l : List Char) : Bool :=
  (kw.map Char.toLower).isPrefixOf (l.map Char.toLower)

/-- One line against `FEATURE_STEP_RE = /^\s*(?:Given|When|Then|And|But)\s+(.*\S)\s*$/i`,
returning the trimmed captured step text: skip leading whitespace, find a
keyword (case-insensitively), require at least one whitespace character
after it, and require some non-whitespace content afterwards. -/
def stepLineText (line : List Char) : Option (List Char) :=
  let l := line.dropWhile jsWs
  match featureKws.findSome? fun kw =>
      if startsWithCi kw l then some kw.length else none with
  | none => none
  | some kl =>
    let rest := l.drop kl
    match rest.head? with
    | some c =>
      if jsWs c then
        let text := trimJs rest
        if text.isEmpty then none else some text
      else none
    | none => none

/-- `extractFeatureSteps`: skip comment lines, keep the step text of every
step line, in order. -/
def extractFeatureSteps (txt : String) : List String :=
  (splitLinesJs txt.data []).filterMap fun line =>
    if (line.dropWhile jsWs).head? == some '#' then none
    else (stepLineText line).map fun cs => String.mk cs

/-! ## Usage classification and the report -/

/-- One entry of the `usage` array: the pattern together with its `used`
field (`null` / `true` / `false` modelled as `Option Bool`). -/
structure UsageEntry where
  pat : StepPattern
  used : Option Bool
deriving DecidableEq, Repr

/-- `usage = allPatterns.map(p => p.regexp ? {...p, used: featureSteps.some(s => p.regexp.test(s))} : {...p, used: null})`. -/
def classifyUsage (pats : List StepPattern) (steps : List String) : List UsageEntry :=
  pats.map fun p =>
    match p.regexp with
    | none => ⟨p, none⟩
    | some r => ⟨p, some (steps.any fun st => reTest r st)⟩

/-- Extraction over all step files in order, threading the shared global
regex's `lastIndex` from one file to the next (as `Promise.all` over the
synchronous extractions does). -/
def extractAllPatterns (files : List (String × String)) : List StepPattern × Nat :=
  files.foldl
    (fun acc fp =>
      let r := extractLoop fp.2.data fp.1 (fp.2.data.length + 1) acc.2
      (acc.1 ++ r.1, r.2))
    ([], 0)

/-- The pure core of `main`: extract all patterns and all feature steps,
then classify usage. -/
def runCore (stepFiles : List (String × String)) (featureTexts : List String) :
    List UsageEntry :=
  let pats := (extractAllPatterns stepFiles).1
  let steps := featureTexts.flatMap extractFeatureSteps
  classifyUsage pats steps

/-- The summary counts and the unused list of the printed report. -/
structure Report where
  parsedCount : Nat
  unusedCount : Nat
  skippedCount : Nat
  unusedRaws : List (List Char)
deriving DecidableEq, Repr

/-- `unused / parsed / skipped` as the script filters them. -/
def buildReport (usage : List UsageEntry) : Report :=
  let unused := usage.filter fun u => u.used == some false
  let parsed := usage.filter fun u => u.used != none
  let skipped := usage.filter fun u => u.used == none
  ⟨parsed.length, unused.length, skipped.length, unused.map fun u => u.pat.raw⟩

/-! ## Auxiliary notions used to state and prove the claims -/

/-- `needle` occurs as a contiguous substring of the second argument. -/
def containsSub (needle : List Char) : List Char → Bool
  | [] => needle.isEmpty
  | c :: cs => needle.isPrefixOf (c :: cs) || containsSub needle cs

/-- A run of `n` space characters. -/
def spaces (n : Nat) : List Char := List.replicate n ' '

/-- Right-nested concatenation with an `rempty` terminator — the shape
`parseSeq` produces. -/
def chainOf : List RegexNode → RegexNode
  | [] => .rempty
  | a :: rest => .rconcat a (chainOf rest)

/-- The compiled form of `\s+`. -/
def spacePlus : RegexNode :=
  .rconcat (.rcls false [.pspace]) (.rstar (.rcls false [.pspace]))

/-- The compiled form of `(\S+)` (with `parseSeq`'s `rempty` terminator
inside the group). -/
def wordGroup : RegexNode :=
  .rgroup (.rconcat (.rconcat (.rcls true [.pspace]) (.rstar (.rcls true [.pspace]))) .rempty)

/-- The compiled form of `q([^q]*)q` for a quote character `q`. -/
def quotedAlt (q : Char) : RegexNode :=
  chainOf [.rchar q, .rgroup (.rconcat (.rstar (.rcls true [.single q])) .rempty), .rchar q]

/-- Matching derivations: `Mtc ci s node i j h` states that `node` matches
the slice of `s` between positions `i` and `j`, witnessed by a derivation
of height at most `h`.  The height bounds the `mrun` fuel needed to replay
the derivation (`mtc_sound` below), which lets facts about the matcher be
proved for symbolic input strings. -/
inductive Mtc (ci : Bool) (s : List Char) : RegexNode → Nat → Nat → Nat → Prop where
  | empty {i h} : Mtc ci s .rempty i i (h + 1)
  | bol {h} : Mtc ci s .rbol 0 0 (h + 1)
  | eol {h} : Mtc ci s .reol s.length s.length (h + 1)
  | chr {c c2 i h} : s[i]? = some c2 → chEq ci c c2 = true →
      Mtc ci s (.rchar c) i (i + 1) (h + 1)
  | anych {c i h} : s[i]? = some c → isLineTerm c = false →
      Mtc ci s .rany i (i + 1) (h + 1)
  | cls {neg items c i h} : s[i]? = some c → clsMatch ci neg items c = true →
      Mtc ci s (.rcls neg items) i (i + 1) (h + 1)
  | group {a i j h} : Mtc ci s a i j h → Mtc ci s (.rgroup a) i j (h + 1)
  | concat {a b i j l h} : Mtc ci s a i j h → Mtc ci s b j l h →
      Mtc ci s (.rconcat a b) i l (h + 1)
  | altL {a b i j h} : Mtc ci s a i j h → Mtc ci s (.ralt a b) i j (h + 1)
  | altR {a b i j h} : Mtc ci s b i j h → Mtc ci s (.ralt a b) i j (h + 1)
  | starNil {a i h} : Mtc ci s (.rstar a) i i (h + 1)
  | starCons {a i j l h} : Mtc ci s a i j h → i < j → Mtc ci s (.rstar a) j l h →
      Mtc ci s (.rstar a) i l (h + 1)

/-! ## Concrete inputs referenced by the claims -/

/-- Step-definition source of the end-to-end scenario (claim C6). -/
def c6StepSrc : String :=
  "Given(\"I do {int} things\", fn); When(/^I click (.+)$/i, fn); Then(\"I navigate to the {word} page\", fn);"

/-- Feature source of the end-to-end scenario: only the two steps
`I do 5 things` and `I click submit`. -/
def c6FeatureSrc : String :=
  "Feature: demo\nScenario: s\n  When I do 5 things\n  And I click submit\n"

/-- A step file with a single unanchored regex declaration. -/
def c5StepSrc : String := "When(/click/, fn);"

/-- A feature whose only step is `I click submit`. -/
def c5FeatureSrc : String := "When I click submit\n"

/-- A step file with a malformed regex literal (unbalanced group) followed
by a well-formed one. -/
def c3StepSrc : String := "Given(/^a(/, fn); When(/^b$/, fn);"

/-- A feature whose only step is `b`. -/
def c3FeatureSrc : String := "When b\n"

/-- A step file declaring the regex literal from claim C4. -/
def c4StepSrc : String := "Given(/^I have (\\d+) items$/, fn);"

/-- The compiled matcher of the declaration `/click/`. -/
def clickRegex : JsRegex :=
  ⟨chainOf [.rchar 'c', .rchar 'l', .rchar 'i', .rchar 'c', .rchar 'k'], false⟩

/-- The usage entry the run of `c5StepSrc` against `c5FeatureSrc` produces. -/
def c5Entry : UsageEntry :=
  ⟨⟨"c.js", "regex", "/click/".data, some clickRegex⟩, some true⟩

/-- The compiled matcher of the expression `"I click {word}"`. -/
def c9Regex : JsRegex :=
  ⟨chainOf [.rbol, .rchar 'I', spacePlus, .rchar 'c', .rchar 'l', .rchar 'i',
            .rchar 'c', .rchar 'k', spacePlus, wordGroup, .reol], true⟩

/-- A step text `I click submit` with configurable runs of whitespace. -/
def c9Step (n m : Nat) : List Char :=
  'I' :: (spaces (n + 1) ++
    ('c' :: 'l' :: 'i' :: 'c' :: 'k' :: (spaces (m + 1) ++ "submit".data)))

/-- The compiled matcher of the expression `"I see {string} here"`: a
top-level three-way alternation in which only the first alternative
carries the `^` anchor and only the last carries the `$` anchor. -/
def c10Regex : JsRegex :=
  ⟨.ralt
    (chainOf [.rbol, .rchar 'I', spacePlus, .rchar 's', .rchar 'e', .rchar 'e', spacePlus,
              .rchar '"', .rgroup (.rconcat (.rstar (.rcls true [.single '"'])) .rempty),
              .rchar '"'])
    (.ralt (quotedAlt sq)
      (chainOf [.rchar bq, .rgroup (.rconcat (.rstar (.rcls true [.single bq])) .rempty),
                .rchar bq, spacePlus, .rchar 'h', .rchar 'e', .rchar 'r', .rchar 'e', .reol])),
   true⟩

/-! # Theorems for the claims -/

/-- Claim C1 (refuted by the code, which contradicts its own README):
substituting each recognised parameter token into the otherwise-literal
expression `I wait for {p} seconds` and matching against the step text with
a valid instance of the type succeeds only for `{word}`, `{string}` and
`{any}`.  For `{int}`, `{float}`, `{double}`, `{bigint}`, `{byte}`,
`{short}`, `{biginteger}` and `{uuid}` the match fails — their substitution
values contain a `-`, which the re-insertion pass escapes in its search key
while the escaping pass did not, so the inserted capture group stays
escaped and matches only literal text.  In particular
`"I wait for {int} seconds"` does not match `"I wait for 42 seconds"`. -/
theorem c1_parameter_token_matching :
    ((exprMatcher "I wait for {int} seconds").map fun r =>
        reTest r "I wait for 42 seconds") = some false ∧
    ((exprMatcher "I wait for {float} seconds").map fun r =>
        reTest r "I wait for 3.14 seconds") = some false ∧
    ((exprMatcher "I wait for {double} seconds").map fun r =>
        reTest r "I wait for 3.14 seconds") = some false ∧
    ((exprMatcher "I wait for {word} seconds").map fun r =>
        reTest r "I wait for blue seconds") = some true ∧
    ((exprMatcher "I wait for {string} seconds").map fun r =>
        reTest r "I wait for \"hello\" seconds") = some true ∧
    ((exprMatcher "I wait for {bigint} seconds").map fun r =>
        reTest r "I wait for 42 seconds") = some false ∧
    ((exprMatcher "I wait for {byte} seconds").map fun r =>
        reTest r "I wait for 7 seconds") = some false ∧
    ((exprMatcher "I wait for {short} seconds").map fun r =>
        reTest r "I wait for 7 seconds") = some false ∧
    ((exprMatcher "I wait for {biginteger} seconds").map fun r =>
        reTest r "I wait for 42 seconds") = some false ∧
    ((exprMatcher "I wait for {uuid} seconds").map fun r =>
        reTest r "I wait for 123e4567-e89b-12d3-a456-426614174000 seconds") = some false ∧
    ((exprMatcher "I wait for {any} seconds").map fun r =>
        reTest r "I wait for anything at all seconds") = some true :=
  ⟨by decide, by decide, by decide, by decide, by decide, by decide,
   by decide, by decide, by decide, by decide, by decide⟩

/-- Claim C2 (refuted by the code): the escape-then-reinsert fixup does not
restore every inserted substitution value.  For the body
`I wait for {int} seconds` the inserted capture group `(-?\d+)` does not
occur in the compiled pattern at all; the pattern retains the escaped form
`\(-\?\\d\+\)` (which matches the literal characters `(-?\d+)`), because
the re-insertion search key escapes `-` while the escape pass does not. -/
theorem c2_escape_reinsert_broken :
    containsSub "(-?\\d+)".data
      (cucumberExprToRegex "I wait for {int} seconds".data) = false ∧
    cucumberExprToRegex "I wait for {int} seconds".data =
      "^I\\s+wait\\s+for\\s+\\(-\\?\\\\d\\+\\)\\s+seconds$".data :=
  ⟨by decide, by decide⟩

/-- Claim C3, counterexample: a declaration with a malformed regex literal
(unbalanced group) does not appear in the extraction results at all — the
result list is empty, so the pattern is not present with `usage = Unknown`
as the claim states. -/
theorem c3_malformed_regex_dropped :
    extractStepPatternsFromSource "Given(/^a(/, fn);" "steps.js" = [] := by
  decide

/-- Claim C3 as amended: a malformed regex literal is non-fatal, but the
failing declaration is silently omitted from the results (it is neither
`Unused` nor `Unknown`), and the other declarations of the run are
extracted and classified exactly as if it were absent. -/
theorem c3_amended_malformed_nonfatal :
    (runCore [("steps.js", c3StepSrc)] [c3FeatureSrc]).map
        (fun e => (e.pat.ptype, e.pat.raw, e.used)) =
      [("regex", "/^b$/".data, some true)] ∧
    (runCore [("steps.js", "When(/^b$/, fn);")] [c3FeatureSrc]).map
        (fun e => (e.pat.ptype, e.pat.raw, e.used)) =
      [("regex", "/^b$/".data, some true)] ∧
    buildReport (runCore [("steps.js", c3StepSrc)] [c3FeatureSrc]) = ⟨1, 0, 0, []⟩ :=
  ⟨by decide, by decide, by decide⟩

/-- Claim C4 (refuted by the code, which contradicts its own README): the
declaration `Given(/^I have (\d+) items$/, fn);` yields no pattern at all.
The extractor truncates the first-argument token at its first whitespace
character (`raw.split(/\s/)[0]` gives `/^I`), which then fails the
`/body/flags` recognition, so the declaration is dropped — it is never
compiled, and never matched against anything.  Had the literal body been
compiled verbatim it would indeed match `I have 3 items` and not
`I have three items` (second conjunct). -/
theorem c4_regex_literal_with_spaces_dropped :
    extractStepPatternsFromSource c4StepSrc "steps.js" = [] ∧
    ((tryBuildRegExp "^I have (\\d+) items$".data []).map fun r =>
        (reTest r "I have 3 items", reTest r "I have three items")) =
      some (true, false) :=
  ⟨by decide, by decide⟩

/-- Claim C5, counterexample: the declaration `/click/` against the single
step `I click submit` is classified `Used`, although no scenario step is
accepted as a full start-to-end match of the line — `test` accepts the
proper substring `click`.  So `usage = Used` is not equivalent to the
existence of a full-line match. -/
theorem c5_substring_match_counterexample :
    runCore [("c.js", c5StepSrc)] [c5FeatureSrc] = [c5Entry] ∧
    c5Entry.used = some true ∧
    extractFeatureSteps c5FeatureSrc = ["I click submit"] ∧
    reFullMatch clickRegex "I click submit" = false :=
  ⟨by decide, by decide, by decide, by decide⟩

/-- Claim C6 (refuted by the code, which contradicts its own README and the
spec's end-to-end scenario): for the step file declaring
`Given("I do {int} things", fn)`, `When(/^I click (.+)$/i, fn)` and
`Then("I navigate to the {word} page", fn)` and the feature containing only
`I do 5 things` and `I click submit`, the report shows 2 parsed patterns
(not 3) and 2 unused patterns (not 1), with 0 unparsed: the regex literal
containing spaces is dropped entirely, and the `{int}` expression fails to
match its own step because of the broken escape re-insertion. -/
theorem c6_end_to_end_report :
    buildReport (runCore [("steps.js", c6StepSrc)] [c6FeatureSrc]) =
      ⟨2, 2, 0, ["I do {int} things".data, "I navigate to the {word} page".data]⟩ := by
  decide

/-! ## Helper lemmas about the pipeline -/

/-- Building with flag string `"i"` produces a case-insensitive matcher. -/
theorem tryBuild_i_ignoreCase {pat : List Char} {re : JsRegex}
    (h : tryBuildRegExp pat ['i'] = some re) : re.ignoreCase = true := by
  unfold tryBuildRegExp at h
  simp only [show (['i'].all flagOk && noDupFlags ['i']) = true by decide, if_true] at h
  cases hp : parseRegex pat with
  | none => rw [hp] at h; simp at h
  | some n => rw [hp] at h; simp at h; rw [← h]

/-- Patterns built by the expression branch carry a matcher and the kind
`"expr"`. -/
theorem exprPattern_shape {raw : List Char} {file : String} {p : StepPattern}
    (hp : p ∈ exprPattern raw file) :
    p.ptype = "expr" ∧ ∃ rx, p.regexp = some rx ∧ rx.ignoreCase = true := by
  unfold exprPattern at hp
  dsimp only at hp
  split at hp
  · simp at hp
  · rename_i re htb
    simp only [List.mem_singleton] at hp
    subst hp
    exact ⟨rfl, re, rfl, tryBuild_i_ignoreCase htb⟩

/-- Every pattern produced by `processRaw` has a matcher exactly when its
kind is not `"unparsed"`. -/
theorem processRaw_matcher_iff {raw : List Char} {file : String} {p : StepPattern}
    (hp : p ∈ processRaw raw file) : (p.regexp = none ↔ p.ptype = "unparsed") := by
  unfold processRaw at hp
  split at hp
  · -- regex branch
    dsimp only at hp
    split at hp
    · simp at hp
    · split at hp
      · simp at hp
      · simp only [List.mem_singleton] at hp
        subst hp
        simp
  · split at hp
    · -- quoted-string branch
      obtain ⟨he, rx, hrx, -⟩ := exprPattern_shape hp
      rw [hrx, he]
      simp
    · split at hp
      · obtain ⟨he, rx, hrx, -⟩ := exprPattern_shape hp
        rw [hrx, he]
        simp
      · simp only [List.mem_singleton] at hp
        subst hp
        simp

/-- The `processRaw` invariant holds for every pattern the extraction loop
produces, from any fuel and any starting `lastIndex`. -/
theorem extractLoop_matcher_iff {s : List Char} {file : String} :
    ∀ f li p, p ∈ (extractLoop s file f li).1 →
      (p.regexp = none ↔ p.ptype = "unparsed") := by
  intro f
  induction f with
  | zero => intro li p hp; simp [extractLoop] at hp
  | succ f ih =>
    intro li p hp
    simp only [extractLoop] at hp
    cases hs : stepCallSearch s (s.length + 1) li with
    | none => rw [hs] at hp; simp at hp
    | some r =>
      rw [hs] at hp
      obtain ⟨cap, li2⟩ := r
      dsimp only at hp
      cases hrec : extractLoop s file f li2 with
      | mk rest fin =>
        rw [hrec] at hp
        dsimp only at hp
        simp only [List.mem_append] at hp
        rcases hp with hp | hp
        · exact processRaw_matcher_iff hp
        · have := ih li2 p
          rw [hrec] at this
          exact this hp

/-! ## Bounds for the `exec` model (for claim C8) -/

/-- Skipping whitespace never moves backwards. -/
theorem skipWsFrom_ge (s : List Char) : ∀ f i, i ≤ skipWsFrom s f i := by
  intro f
  induction f with
  | zero => intro i; simp [skipWsFrom]
  | succ f ih =>
    intro i
    simp only [skipWsFrom]
    cases h : s[i]? with
    | none => simp
    | some c =>
      by_cases hw : jsWs c
      · simp only [hw, if_true]
        exact le_trans (Nat.le_succ i) (ih (i + 1))
      · simp [hw]

/-- A found comma is a real index of the string. -/
theorem findCommaFrom_lt (s : List Char) :
    ∀ f i t, findCommaFrom s f i = some t → t < s.length := by
  intro f
  induction f with
  | zero => intro i t h; simp [findCommaFrom] at h
  | succ f ih =>
    intro i t h
    simp only [findCommaFrom] at h
    cases hg : s[i]? with
    | none => rw [hg] at h; simp at h
    | some c =>
      rw [hg] at h
      by_cases hc : c == ','
      · simp only [hc, if_true, Option.some_inj] at h
        subst h
        exact (List.getElem?_eq_some.mp hg).1
      · simp only [hc, if_false] at h
        exact ih (i + 1) t h

/-- A successful match of the step-call regex at `p` ends strictly after
`p` and within the string. -/
theorem tryStepCallAt_bounds {s : List Char} {p : Nat} {cap : List Char} {e : Nat}
    (h : tryStepCallAt s p = some (cap, e)) : p < e ∧ e ≤ s.length := by
  unfold tryStepCallAt at h
  split at h
  case isFalse => simp at h
  split at h
  case h_1 => simp at h
  case h_2 kl hkw =>
    dsimp only at h
    split at h
    case isFalse => simp at h
    split at h
    case h_1 => simp at h
    case h_2 t hfc =>
      split at h
      case isFalse => simp at h
      case isTrue hqt =>
        simp only [Option.some_inj, Prod.mk.injEq] at h
        obtain ⟨-, he⟩ := h
        subst he
        have h1 := findCommaFrom_lt s _ _ _ hfc
        have h2 := skipWsFrom_ge s (s.length + 1) (p + kl)
        omega

/-- When the scan starts at or past the end of the string, `exec` fails. -/
theorem stepCallSearch_none_of_ge {s : List Char} {f p : Nat} (h : s.length ≤ p) :
    stepCallSearch s f p = none := by
  cases f with
  | zero => rfl
  | succ f => simp [stepCallSearch, h]

/-- A successful `exec` leaves `lastIndex` strictly beyond the scan start
and within the string. -/
theorem stepCallSearch_bounds {s : List Char} :
    ∀ f p cap e, stepCallSearch s f p = some (cap, e) → p < e ∧ e ≤ s.length := by
  intro f
  induction f with
  | zero => intro p cap e h; simp [stepCallSearch] at h
  | succ f ih =>
    intro p cap e h
    simp only [stepCallSearch] at h
    split at h
    · simp at h
    · cases ht : tryStepCallAt s p with
      | some r =>
        rw [ht] at h
        simp only [Option.some_inj] at h
        subst h
        exact tryStepCallAt_bounds ht
      | none =>
        rw [ht] at h
        have := ih (p + 1) cap e h
        omega

/-- After a full extraction pass the global regex's `lastIndex` is `0`:
the loop always ends with a failed `exec`, which resets the state. -/
theorem extractLoop_resets (s : List Char) (file : String) :
    ∀ f li, s.length < f + 1 + li → (extractLoop s file (f + 1) li).2 = 0 := by
  intro f
  induction f with
  | zero =>
    intro li h
    have hge : s.length ≤ li := by omega
    simp [extractLoop, stepCallSearch_none_of_ge hge]
  | succ f ih =>
    intro li h
    rw [extractLoop]
    cases hs : stepCallSearch s (s.length + 1) li with
    | none => simp
    | some r =>
      obtain ⟨cap, li2⟩ := r
      have hb := stepCallSearch_bounds _ _ _ _ hs
      have hz := ih li2 (by omega)
      cases hrec : extractLoop s file (f + 1) li2 with
      | mk rest fin =>
        rw [hrec] at hz
        dsimp only
        rw [hrec]
        simpa using hz

/-! ## Soundness of matching derivations -/

/-- Height weakening for derivations. -/
theorem Mtc.weaken {ci : Bool} {s : List Char} :
    ∀ {node : RegexNode} {i j h : Nat}, Mtc ci s node i j h →
      ∀ {h' : Nat}, h ≤ h' → Mtc ci s node i j h' := by
  intro node i j h hm
  induction hm with
  | empty =>
    intro h' hh
    obtain ⟨g, rfl⟩ : ∃ g, h' = g + 1 := ⟨h' - 1, by omega⟩
    exact Mtc.empty
  | bol =>
    intro h' hh
    obtain ⟨g, rfl⟩ : ∃ g, h' = g + 1 := ⟨h' - 1, by omega⟩
    exact Mtc.bol
  | eol =>
    intro h' hh
    obtain ⟨g, rfl⟩ : ∃ g, h' = g + 1 := ⟨h' - 1, by omega⟩
    exact Mtc.eol
  | chr h1 h2 =>
    intro h' hh
    obtain ⟨g, rfl⟩ : ∃ g, h' = g + 1 := ⟨h' - 1, by omega⟩
    exact Mtc.chr h1 h2
  | anych h1 h2 =>
    intro h' hh
    obtain ⟨g, rfl⟩ : ∃ g, h' = g + 1 := ⟨h' - 1, by omega⟩
    exact Mtc.anych h1 h2
  | cls h1 h2 =>
    intro h' hh
    obtain ⟨g, rfl⟩ : ∃ g, h' = g + 1 := ⟨h' - 1, by omega⟩
    exact Mtc.cls h1 h2
  | group hsub ih =>
    intro h' hh
    obtain ⟨g, rfl⟩ : ∃ g, h' = g + 1 := ⟨h' - 1, by omega⟩
    exact Mtc.group (ih (by omega))
  | concat ha hb iha ihb =>
    intro h' hh
    obtain ⟨g, rfl⟩ : ∃ g, h' = g + 1 := ⟨h' - 1, by omega⟩
    exact Mtc.concat (iha (by omega)) (ihb (by omega))
  | altL ha ih =>
    intro h' hh
    obtain ⟨g, rfl⟩ : ∃ g, h' = g + 1 := ⟨h' - 1, by omega⟩
    exact Mtc.altL (ih (by omega))
  | altR hb ih =>
    intro h' hh
    obtain ⟨g, rfl⟩ : ∃ g, h' = g + 1 := ⟨h' - 1, by omega⟩
    exact Mtc.altR (ih (by omega))
  | starNil =>
    intro h' hh
    obtain ⟨g, rfl⟩ : ∃ g, h' = g + 1 := ⟨h' - 1, by omega⟩
    exact Mtc.starNil
  | starCons ha hlt hrest iha ihrest =>
    intro h' hh
    obtain ⟨g, rfl⟩ : ∃ g, h' = g + 1 := ⟨h' - 1, by omega⟩
    exact Mtc.starCons (iha (by omega)) hlt (ihrest (by omega))

/-- Replaying a derivation in the fuel-driven matcher: if `node` matches
`s` between `i` and `j` by a derivation of height `h`, then `mrun` with any
fuel `≥ h` succeeds for any continuation accepting `j`. -/
theorem mtc_sound {ci : Bool} {s : List Char} :
    ∀ {node : RegexNode} {i j h : Nat}, Mtc ci s node i j h →
      ∀ (k : Nat → Bool) (f : Nat), k j = true → h ≤ f → mrun ci f node s i k = true := by
  intro node i j h hm
  induction hm with
  | empty =>
    intro k f hk hf
    obtain ⟨g, rfl⟩ : ∃ g, f = g + 1 := ⟨f - 1, by omega⟩
    simpa [mrun] using hk
  | bol =>
    intro k f hk hf
    obtain ⟨g, rfl⟩ : ∃ g, f = g + 1 := ⟨f - 1, by omega⟩
    simpa [mrun] using hk
  | eol =>
    intro k f hk hf
    obtain ⟨g, rfl⟩ : ∃ g, f = g + 1 := ⟨f - 1, by omega⟩
    simpa [mrun] using hk
  | chr h1 h2 =>
    intro k f hk hf
    obtain ⟨g, rfl⟩ : ∃ g, f = g + 1 := ⟨f - 1, by omega⟩
    simp [mrun, h1, h2, hk]
  | anych h1 h2 =>
    intro k f hk hf
    obtain ⟨g, rfl⟩ : ∃ g, f = g + 1 := ⟨f - 1, by omega⟩
    simp [mrun, h1, h2, hk]
  | cls h1 h2 =>
    intro k f hk hf
    obtain ⟨g, rfl⟩ : ∃ g, f = g + 1 := ⟨f - 1, by omega⟩
    simp [mrun, h1, h2, hk]
  | group hsub ih =>
    intro k f hk hf
    obtain ⟨g, rfl⟩ : ∃ g, f = g + 1 := ⟨f - 1, by omega⟩
    simpa [mrun] using ih k g hk (by omega)
  | concat ha hb iha ihb =>
    intro k f hk hf
    obtain ⟨g, rfl⟩ : ∃ g, f = g + 1 := ⟨f - 1, by omega⟩
    simp only [mrun]
    exact iha _ g (ihb k g hk (by omega)) (by omega)
  | altL ha ih =>
    intro k f hk hf
    obtain ⟨g, rfl⟩ : ∃ g, f = g + 1 := ⟨f - 1, by omega⟩
    simp only [mrun, Bool.or_eq_true]
    exact Or.inl (ih k g hk (by omega))
  | altR hb ih =>
    intro k f hk hf
    obtain ⟨g, rfl⟩ : ∃ g, f = g + 1 := ⟨f - 1, by omega⟩
    simp only [mrun, Bool.or_eq_true]
    exact Or.inr (ih k g hk (by omega))
  | starNil =>
    intro k f hk hf
    obtain ⟨g, rfl⟩ : ∃ g, f = g + 1 := ⟨f - 1, by omega⟩
    simp [mrun, hk]
  | starCons ha hlt hrest iha ihrest =>
    intro k f hk hf
    obtain ⟨g, rfl⟩ : ∃ g, f = g + 1 := ⟨f - 1, by omega⟩
    simp only [mrun, Bool.or_eq_true]
    refine Or.inr (iha _ g ?_ (by omega))
    simp only [Bool.and_eq_true, decide_eq_true_eq]
    exact ⟨hlt, ihrest k g hk (by omega)⟩

/-! ## Derivation constructors

Endpoint-explicit forms of the `Mtc` constructors with a free height, so
that index arithmetic and height bookkeeping reduce to `omega` side
goals. -/
theorem mtc_empty_any {ci : Bool} {s : List Char} {i j h : Nat}
    (hj : j = i) (hh : 1 ≤ h) : Mtc ci s .rempty i j h := by
  obtain ⟨g, rfl⟩ : ∃ g, h = g + 1 := ⟨h - 1, by omega⟩
  subst hj
  exact Mtc.empty

theorem mtc_bol_any {ci : Bool} {s : List Char} {i j h : Nat}
    (hi : i = 0) (hj : j = 0) (hh : 1 ≤ h) : Mtc ci s .rbol i j h := by
  obtain ⟨g, rfl⟩ : ∃ g, h = g + 1 := ⟨h - 1, by omega⟩
  subst hi; subst hj
  exact Mtc.bol

theorem mtc_eol_any {ci : Bool} {s : List Char} {i j h : Nat}
    (hi : i = s.length) (hj : j = i) (hh : 1 ≤ h) : Mtc ci s .reol i j h := by
  obtain ⟨g, rfl⟩ : ∃ g, h = g + 1 := ⟨h - 1, by omega⟩
  subst hj; subst hi
  exact Mtc.eol

theorem mtc_chr_any {ci : Bool} {s : List Char} {c c2 : Char} {i j h : Nat}
    (h1 : s[i]? = some c2) (h2 : chEq ci c c2 = true) (hj : j = i + 1) (hh : 1 ≤ h) :
    Mtc ci s (.rchar c) i j h := by
  obtain ⟨g, rfl⟩ : ∃ g, h = g + 1 := ⟨h - 1, by omega⟩
  subst hj
  exact Mtc.chr h1 h2

theorem mtc_cls_any {ci : Bool} {s : List Char} {neg : Bool} {items : List ClassItem}
    {c : Char} {i j h : Nat}
    (h1 : s[i]? = some c) (h2 : clsMatch ci neg items c = true) (hj : j = i + 1) (hh : 1 ≤ h) :
    Mtc ci s (.rcls neg items) i j h := by
  obtain ⟨g, rfl⟩ : ∃ g, h = g + 1 := ⟨h - 1, by omega⟩
  subst hj
  exact Mtc.cls h1 h2

theorem mtc_group_any {ci : Bool} {s : List Char} {a : RegexNode} {i j h' h : Nat}
    (da : Mtc ci s a i j h') (hh : h' + 1 ≤ h) : Mtc ci s (.rgroup a) i j h := by
  obtain ⟨g, rfl⟩ : ∃ g, h = g + 1 := ⟨h - 1, by omega⟩
  exact Mtc.group (da.weaken (by omega))

theorem mtc_concat_any {ci : Bool} {s : List Char} {a b : RegexNode} {i j l h1 h2 h : Nat}
    (da : Mtc ci s a i j h1) (db : Mtc ci s b j l h2)
    (ha : h1 + 1 ≤ h) (hb : h2 + 1 ≤ h) : Mtc ci s (.rconcat a b) i l h := by
  obtain ⟨g, rfl⟩ : ∃ g, h = g + 1 := ⟨h - 1, by omega⟩
  exact Mtc.concat (da.weaken (by omega)) (db.weaken (by omega))

theorem mtc_altL_any {ci : Bool} {s : List Char} {a b : RegexNode} {i j h' h : Nat}
    (da : Mtc ci s a i j h') (hh : h' + 1 ≤ h) : Mtc ci s (.ralt a b) i j h := by
  obtain ⟨g, rfl⟩ : ∃ g, h = g + 1 := ⟨h - 1, by omega⟩
  exact Mtc.altL (da.weaken (by omega))

theorem mtc_altR_any {ci : Bool} {s : List Char} {a b : RegexNode} {i j h' h : Nat}
    (db : Mtc ci s b i j h') (hh : h' + 1 ≤ h) : Mtc ci s (.ralt a b) i j h := by
  obtain ⟨g, rfl⟩ : ∃ g, h = g + 1 := ⟨h - 1, by omega⟩
  exact Mtc.altR (db.weaken (by omega))

theorem mtc_star_cls {ci : Bool} {s : List Char} {neg : Bool} {items : List ClassItem} :
    ∀ (n i : Nat), (∀ t, t < n → ∃ c, s[i + t]? = some c ∧ clsMatch ci neg items c = true) →
      Mtc ci s (.rstar (.rcls neg items)) i (i + n) (n + 1) := by
  intro n
  induction n with
  | zero => intro i _; simpa using Mtc.starNil
  | succ n ih =>
    intro i hf
    obtain ⟨c, hc, hm⟩ := hf 0 (by omega)
    rw [show i + 0 = i from by omega] at hc
    have hrest := ih (i + 1) (fun t ht => by
      obtain ⟨c2, hc2, hm2⟩ := hf (t + 1) (by omega)
      exact ⟨c2, by rwa [show i + 1 + t = i + (t + 1) from by omega], hm2⟩)
    have hcls : Mtc ci s (.rcls neg items) i (i + 1) (n + 1) := Mtc.cls hc hm
    have hres := Mtc.starCons hcls (by omega) hrest
    rwa [show i + 1 + n = i + (n + 1) from by omega] at hres

theorem mtc_star_cls_any {ci : Bool} {s : List Char} {neg : Bool} {items : List ClassItem}
    {n i j h : Nat}
    (hf : ∀ t, t < n → ∃ c, s[i + t]? = some c ∧ clsMatch ci neg items c = true)
    (hj : j = i + n) (hh : n + 1 ≤ h) : Mtc ci s (.rstar (.rcls neg items)) i j h := by
  subst hj
  exact (mtc_star_cls n i hf).weaken hh


/-! ## Theorems for the remaining claims -/

/-- Claim C5 as amended: for every classified pattern with a present
matcher, `usage = Used` iff some scenario-step text is accepted by the
matcher under `test` semantics — a match anywhere in the line, constrained
only by the pattern's own anchors, so a proper-substring match suffices.
Expression-kind sources are textually wrapped in `^...$` and their
matchers are built case-insensitively. -/
theorem c5_amended_used_iff_test (pats : List StepPattern) (steps : List String)
    (e : UsageEntry) (he : e ∈ classifyUsage pats steps) (r : JsRegex)
    (hr : e.pat.regexp = some r) :
    (e.used = some true ↔ ∃ st ∈ steps, reTest r st = true) ∧
    (∀ body : List Char, ∃ core, cucumberExprToRegex body = '^' :: core ++ ['$']) ∧
    (∀ raw file p, p ∈ exprPattern raw file →
      ∃ rx, p.regexp = some rx ∧ rx.ignoreCase = true) := by
  refine ⟨?_, fun body => ⟨_, rfl⟩, fun raw file p hp => (exprPattern_shape hp).2⟩
  unfold classifyUsage at he
  obtain ⟨q, hq, hqe⟩ := List.mem_map.mp he
  cases hreg : q.regexp with
  | none =>
    rw [hreg] at hqe
    subst hqe
    rw [hreg] at hr
    exact absurd hr (by simp)
  | some rr =>
    rw [hreg] at hqe
    subst hqe
    rw [hreg] at hr
    simp only [Option.some_inj] at hr
    subst hr
    simp only [Option.some_inj]
    constructor
    · intro hany
      exact List.any_eq_true.mp hany
    · intro hex
      exact List.any_eq_true.mpr hex

/-- Witness for C5's amended theorem at the `/click/` run. -/
theorem c5_amended_used_iff_test_witness :
    (c5Entry.used = some true ↔ ∃ st ∈ ["I click submit"], reTest clickRegex st = true) ∧
    (∀ body : List Char, ∃ core, cucumberExprToRegex body = '^' :: core ++ ['$']) ∧
    (∀ raw file p, p ∈ exprPattern raw file →
      ∃ rx, p.regexp = some rx ∧ rx.ignoreCase = true) :=
  c5_amended_used_iff_test (extractStepPatternsFromSource c5StepSrc "c.js")
    ["I click submit"] c5Entry (by decide) clickRegex (by decide)

/-- Claim C7 (confirmed): in the classified results of any extraction run,
`usage = Unknown` (modelled `used = none`) holds exactly for the patterns
whose matcher is absent, and equivalently exactly for the patterns of kind
`Unparsed`; every pattern with a compiled matcher is `Used` or `Unused`. -/
theorem c7_unknown_iff_matcher_absent (src file : String) (li : Nat)
    (steps : List String) (e : UsageEntry)
    (he : e ∈ classifyUsage (extractS src file li).1 steps) :
    (e.used = none ↔ e.pat.regexp = none) ∧
    (e.used = none ↔ e.pat.ptype = "unparsed") := by
  unfold classifyUsage at he
  obtain ⟨q, hq, hqe⟩ := List.mem_map.mp he
  have hinv : q.regexp = none ↔ q.ptype = "unparsed" := by
    unfold extractS at hq
    exact extractLoop_matcher_iff _ _ _ hq
  cases hreg : q.regexp with
  | none =>
    rw [hreg] at hqe
    subst hqe
    simp only [hreg]
    exact ⟨by simp, by simpa using hinv.mp hreg⟩
  | some rr =>
    rw [hreg] at hqe
    subst hqe
    simp only [hreg]
    constructor
    · simp
    · simp only [show (some (steps.any fun st => reTest rr st) : Option Bool) ≠ none by simp,
        false_iff] at *
      intro hup
      have := hinv.mpr hup
      rw [hreg] at this
      exact absurd this (by simp)

/-- Witness for C7 at a run with one unparsed declaration. -/
theorem c7_unknown_iff_matcher_absent_witness :
    ((⟨⟨"f", "unparsed", "myVar".data, none⟩, none⟩ : UsageEntry).used = none ↔
      (⟨⟨"f", "unparsed", "myVar".data, none⟩, none⟩ : UsageEntry).pat.regexp = none) ∧
    ((⟨⟨"f", "unparsed", "myVar".data, none⟩, none⟩ : UsageEntry).used = none ↔
      (⟨⟨"f", "unparsed", "myVar".data, none⟩, none⟩ : UsageEntry).pat.ptype = "unparsed") :=
  c7_unknown_iff_matcher_absent "Given(myVar, fn);" "f" 0 []
    ⟨⟨"f", "unparsed", "myVar".data, none⟩, none⟩ (by decide)

/-- Claim C8 (confirmed): the extractor is deterministic and idempotent.
The only hidden state is the shared global registration regex's
`lastIndex`; a full extraction pass always ends with a failed `exec`,
which resets `lastIndex` to `0`, so a second run on the same input starts
from the same state and returns the identical ordered pattern list. -/
theorem c8_extraction_idempotent (src file : String) :
    (extractS src file 0).2 = 0 ∧
    (extractS src file ((extractS src file 0).2)).1 = (extractS src file 0).1 := by
  have h : (extractS src file 0).2 = 0 := by
    unfold extractS
    exact extractLoop_resets _ _ _ 0 (by omega)
  exact ⟨h, by rw [h]⟩



theorem c9Step_length (n m : Nat) : (c9Step n m).length = n + m + 14 := by
  have h6 : ("submit".data).length = 6 := by decide
  simp [c9Step, spaces, h6]
  omega

theorem c9Step_sp1 (n m : Nat) : ∀ t, t < n + 1 → (c9Step n m)[1 + t]? = some ' ' := by
  intro t ht
  simp only [c9Step]
  rw [show 1 + t = t + 1 from by omega, List.getElem?_cons_succ]
  rw [List.getElem?_append_left (by simpa [spaces] using ht)]
  simp [spaces, ht]

theorem c9Step_rest (n m u : Nat) :
    (c9Step n m)[n + 2 + u]? =
      ('c' :: 'l' :: 'i' :: 'c' :: 'k' :: (spaces (m + 1) ++ "submit".data))[u]? := by
  simp only [c9Step]
  rw [show n + 2 + u = (n + 1 + u) + 1 from by omega, List.getElem?_cons_succ]
  rw [List.getElem?_append_right (by simp only [spaces, List.length_replicate]; omega)]
  congr 1
  simp only [spaces, List.length_replicate]
  omega

theorem c9Step_click (n m : Nat) :
    (c9Step n m)[n + 2]? = some 'c' ∧ (c9Step n m)[n + 3]? = some 'l' ∧
    (c9Step n m)[n + 4]? = some 'i' ∧ (c9Step n m)[n + 5]? = some 'c' ∧
    (c9Step n m)[n + 6]? = some 'k' := by
  refine ⟨?_, ?_, ?_, ?_, ?_⟩
  · have h := c9Step_rest n m 0
    rw [show n + 2 + 0 = n + 2 from by omega] at h
    rw [h]
    rfl
  · have h := c9Step_rest n m 1
    rw [show n + 2 + 1 = n + 3 from by omega] at h
    rw [h]
    rfl
  · have h := c9Step_rest n m 2
    rw [show n + 2 + 2 = n + 4 from by omega] at h
    rw [h]
    rfl
  · have h := c9Step_rest n m 3
    rw [show n + 2 + 3 = n + 5 from by omega] at h
    rw [h]
    rfl
  · have h := c9Step_rest n m 4
    rw [show n + 2 + 4 = n + 6 from by omega] at h
    rw [h]
    rfl

theorem c9Step_sp2 (n m : Nat) : ∀ t, t < m + 1 → (c9Step n m)[n + 7 + t]? = some ' ' := by
  intro t ht
  have h := c9Step_rest n m (5 + t)
  rw [show n + 2 + (5 + t) = n + 7 + t from by omega] at h
  rw [h]
  rw [show 5 + t = (4 + t) + 1 from by omega, List.getElem?_cons_succ,
      show 4 + t = (3 + t) + 1 from by omega, List.getElem?_cons_succ,
      show 3 + t = (2 + t) + 1 from by omega, List.getElem?_cons_succ,
      show 2 + t = (1 + t) + 1 from by omega, List.getElem?_cons_succ,
      show 1 + t = t + 1 from by omega, List.getElem?_cons_succ]
  rw [List.getElem?_append_left (by simpa [spaces] using ht)]
  simp [spaces, ht]

theorem c9Step_sub (n m u : Nat) :
    (c9Step n m)[n + m + 8 + u]? = ("submit".data)[u]? := by
  have h := c9Step_rest n m (m + 6 + u)
  rw [show n + 2 + (m + 6 + u) = n + m + 8 + u from by omega] at h
  rw [h]
  rw [show m + 6 + u = (m + 5 + u) + 1 from by omega, List.getElem?_cons_succ,
      show m + 5 + u = (m + 4 + u) + 1 from by omega, List.getElem?_cons_succ,
      show m + 4 + u = (m + 3 + u) + 1 from by omega, List.getElem?_cons_succ,
      show m + 3 + u = (m + 2 + u) + 1 from by omega, List.getElem?_cons_succ,
      show m + 2 + u = (m + 1 + u) + 1 from by omega, List.getElem?_cons_succ]
  rw [List.getElem?_append_right (by simp only [spaces, List.length_replicate]; omega)]
  congr 1
  simp only [spaces, List.length_replicate]
  omega



theorem c9_matches (n m : Nat) : mtest c9Regex (c9Step n m) = true := by
  set s : List Char := c9Step n m with hs
  have hlen : s.length = n + m + 14 := c9Step_length n m
  obtain ⟨hc1, hc2, hc3, hc4, hc5⟩ := c9Step_click n m
  -- word group: (\S+) over "submit"
  have hsub0 : s[n + m + 8]? = some 's' := by
    have h := c9Step_sub n m 0
    rw [show n + m + 8 + 0 = n + m + 8 from by omega] at h
    rw [hs, h]; rfl
  have dNs1 : Mtc true s (.rcls true [.pspace]) (n + m + 8) (n + m + 9) (n + m + 13) :=
    mtc_cls_any hsub0 (by decide) (by omega) (by omega)
  have dStarSub : Mtc true s (.rstar (.rcls true [.pspace])) (n + m + 9) (n + m + 14) (n + m + 13) := by
    refine mtc_star_cls_any (n := 5) ?_ (by omega) (by omega)
    intro t ht
    have h := c9Step_sub n m (t + 1)
    rw [show n + m + 8 + (t + 1) = n + m + 9 + t from by omega] at h
    rw [hs]
    interval_cases t
    · exact ⟨'u', by rw [h]; rfl, by decide⟩
    · exact ⟨'b', by rw [h]; rfl, by decide⟩
    · exact ⟨'m', by rw [h]; rfl, by decide⟩
    · exact ⟨'i', by rw [h]; rfl, by decide⟩
    · exact ⟨'t', by rw [h]; rfl, by decide⟩
  have dInner1 : Mtc true s (.rconcat (.rcls true [.pspace]) (.rstar (.rcls true [.pspace])))
      (n + m + 8) (n + m + 14) (n + m + 14) :=
    mtc_concat_any dNs1 dStarSub (by omega) (by omega)
  have dEmptyG : Mtc true s .rempty (n + m + 14) (n + m + 14) (n + m + 14) :=
    mtc_empty_any rfl (by omega)
  have dInner : Mtc true s (.rconcat (.rconcat (.rcls true [.pspace]) (.rstar (.rcls true [.pspace]))) .rempty)
      (n + m + 8) (n + m + 14) (n + m + 15) :=
    mtc_concat_any dInner1 dEmptyG (by omega) (by omega)
  have dGroup : Mtc true s wordGroup (n + m + 8) (n + m + 14) (n + m + 16) :=
    mtc_group_any dInner (by omega)
  -- second \s+
  have hsp2a : s[n + 7]? = some ' ' := by
    have h := c9Step_sp2 n m 0 (by omega)
    rw [show n + 7 + 0 = n + 7 from by omega] at h
    rw [hs, h]
  have dSp2Cls : Mtc true s (.rcls false [.pspace]) (n + 7) (n + 8) (n + m + 13) :=
    mtc_cls_any hsp2a (by decide) (by omega) (by omega)
  have dSp2Star : Mtc true s (.rstar (.rcls false [.pspace])) (n + 8) (n + m + 8) (n + m + 13) := by
    refine mtc_star_cls_any (n := m) ?_ (by omega) (by omega)
    intro t ht
    have h := c9Step_sp2 n m (t + 1) (by omega)
    rw [show n + 7 + (t + 1) = n + 8 + t from by omega] at h
    exact ⟨' ', by rw [hs, h], by decide⟩
  have dSp2 : Mtc true s spacePlus (n + 7) (n + m + 8) (n + m + 14) :=
    mtc_concat_any dSp2Cls dSp2Star (by omega) (by omega)
  -- first \s+
  have hsp1a : s[1]? = some ' ' := by
    have h := c9Step_sp1 n m 0 (by omega)
    rw [show 1 + 0 = 1 from by omega] at h
    rw [hs, h]
  have dSp1Cls : Mtc true s (.rcls false [.pspace]) 1 2 (n + m + 13) :=
    mtc_cls_any hsp1a (by decide) (by omega) (by omega)
  have dSp1Star : Mtc true s (.rstar (.rcls false [.pspace])) 2 (n + 2) (n + m + 13) := by
    refine mtc_star_cls_any (n := n) ?_ (by omega) (by omega)
    intro t ht
    have h := c9Step_sp1 n m (t + 1) (by omega)
    rw [show 1 + (t + 1) = 2 + t from by omega] at h
    exact ⟨' ', by rw [hs, h], by decide⟩
  have dSp1 : Mtc true s spacePlus 1 (n + 2) (n + m + 14) :=
    mtc_concat_any dSp1Cls dSp1Star (by omega) (by omega)
  -- leaves
  have h0 : s[0]? = some 'I' := by rw [hs]; rfl
  have dEol : Mtc true s .reol (n + m + 14) (n + m + 14) (n + m + 15) :=
    mtc_eol_any (by omega) rfl (by omega)
  have dEmpty : Mtc true s .rempty (n + m + 14) (n + m + 14) (n + m + 15) :=
    mtc_empty_any rfl (by omega)
  -- assemble the chain from the right
  have e1 : Mtc true s (chainOf [.reol]) (n + m + 14) (n + m + 14) (n + m + 16) :=
    mtc_concat_any dEol dEmpty (by omega) (by omega)
  have e2 : Mtc true s (chainOf [wordGroup, .reol]) (n + m + 8) (n + m + 14) (n + m + 17) :=
    mtc_concat_any dGroup e1 (by omega) (by omega)
  have e3 : Mtc true s (chainOf [spacePlus, wordGroup, .reol]) (n + 7) (n + m + 14) (n + m + 18) :=
    mtc_concat_any dSp2 e2 (by omega) (by omega)
  have dK : Mtc true s (.rchar 'k') (n + 6) (n + 7) (n + m + 15) :=
    mtc_chr_any hc5 (by decide) (by omega) (by omega)
  have dC2 : Mtc true s (.rchar 'c') (n + 5) (n + 6) (n + m + 15) :=
    mtc_chr_any hc4 (by decide) (by omega) (by omega)
  have dIdot : Mtc true s (.rchar 'i') (n + 4) (n + 5) (n + m + 15) :=
    mtc_chr_any hc3 (by decide) (by omega) (by omega)
  have dL : Mtc true s (.rchar 'l') (n + 3) (n + 4) (n + m + 15) :=
    mtc_chr_any hc2 (by decide) (by omega) (by omega)
  have dC1 : Mtc true s (.rchar 'c') (n + 2) (n + 3) (n + m + 15) :=
    mtc_chr_any hc1 (by decide) (by omega) (by omega)
  have dIcap : Mtc true s (.rchar 'I') 0 1 (n + m + 15) :=
    mtc_chr_any h0 (by decide) (by omega) (by omega)
  have dBol : Mtc true s .rbol 0 0 (n + m + 15) :=
    mtc_bol_any rfl rfl (by omega)
  have e4 : Mtc true s (chainOf [.rchar 'k', spacePlus, wordGroup, .reol]) (n + 6) (n + m + 14) (n + m + 19) :=
    mtc_concat_any dK e3 (by omega) (by omega)
  have e5 : Mtc true s (chainOf [.rchar 'c', .rchar 'k', spacePlus, wordGroup, .reol]) (n + 5) (n + m + 14) (n + m + 20) :=
    mtc_concat_any dC2 e4 (by omega) (by omega)
  have e6 : Mtc true s (chainOf [.rchar 'i', .rchar 'c', .rchar 'k', spacePlus, wordGroup, .reol]) (n + 4) (n + m + 14) (n + m + 21) :=
    mtc_concat_any dIdot e5 (by omega) (by omega)
  have e7 : Mtc true s (chainOf [.rchar 'l', .rchar 'i', .rchar 'c', .rchar 'k', spacePlus, wordGroup, .reol]) (n + 3) (n + m + 14) (n + m + 22) :=
    mtc_concat_any dL e6 (by omega) (by omega)
  have e8 : Mtc true s (chainOf [.rchar 'c', .rchar 'l', .rchar 'i', .rchar 'c', .rchar 'k', spacePlus, wordGroup, .reol]) (n + 2) (n + m + 14) (n + m + 23) :=
    mtc_concat_any dC1 e7 (by omega) (by omega)
  have e9 : Mtc true s (chainOf [spacePlus, .rchar 'c', .rchar 'l', .rchar 'i', .rchar 'c', .rchar 'k', spacePlus, wordGroup, .reol]) 1 (n + m + 14) (n + m + 24) :=
    mtc_concat_any dSp1 e8 (by omega) (by omega)
  have e10 : Mtc true s (chainOf [.rchar 'I', spacePlus, .rchar 'c', .rchar 'l', .rchar 'i', .rchar 'c', .rchar 'k', spacePlus, wordGroup, .reol]) 0 (n + m + 14) (n + m + 25) :=
    mtc_concat_any dIcap e9 (by omega) (by omega)
  have etop : Mtc true s c9Regex.node 0 (n + m + 14) (n + m + 26) :=
    mtc_concat_any dBol e10 (by omega) (by omega)
  -- replay the derivation in the matcher
  unfold mtest
  apply List.any_eq_true.mpr
  refine ⟨0, List.mem_range.mpr (by omega), ?_⟩
  apply mtc_sound etop _ _ rfl
  have hsz : nodeSize c9Regex.node = 35 := by decide
  unfold nodeFuel
  rw [hsz, hlen]
  omega



theorem toNat_ofNat_valid {m : Nat} (h : m < 55296) : (Char.ofNat m).toNat = m := by
  rw [Char.ofNat, dif_pos (Or.inl h)]
  rfl

theorem toLower_eq_sq {c : Char} (h : c.toLower = sq) : c = sq := by
  unfold Char.toLower at h
  dsimp only at h
  split at h
  · exfalso
    rename_i hr
    have h2 := congrArg Char.toNat h
    rw [toNat_ofNat_valid (by omega)] at h2
    have hs : sq.toNat = 39 := by decide
    omega
  · exact h

theorem toUpper_eq_sq {c : Char} (h : c.toUpper = sq) : c = sq := by
  unfold Char.toUpper at h
  dsimp only at h
  split at h
  · exfalso
    rename_i hr
    have h2 := congrArg Char.toNat h
    rw [toNat_ofNat_valid (by omega)] at h2
    have hs : sq.toNat = 39 := by decide
    omega
  · exact h

theorem clsMatch_not_sq {c : Char} (hc : c ≠ sq) :
    clsMatch true true [ClassItem.single sq] c = true := by
  have h1 : (c == sq) = false := beq_eq_false_iff_ne.mpr hc
  have h2 : (c.toLower == sq) = false :=
    beq_eq_false_iff_ne.mpr fun h => hc (toLower_eq_sq h)
  have h3 : (c.toUpper == sq) = false :=
    beq_eq_false_iff_ne.mpr fun h => hc (toUpper_eq_sq h)
  simp [clsMatch, clsHit, classItemMatch, h1, h2, h3]

theorem c10Step_length (pre mid post : List Char) :
    (pre ++ sq :: (mid ++ sq :: post)).length =
      pre.length + mid.length + post.length + 2 := by
  simp
  omega


theorem c10Step_open (pre mid post : List Char) :
    (pre ++ sq :: (mid ++ sq :: post))[pre.length]? = some sq := by
  rw [List.getElem?_append_right (by omega)]
  simp

theorem c10Step_mid (pre mid post : List Char) :
    ∀ t, t < mid.length →
      (pre ++ sq :: (mid ++ sq :: post))[pre.length + 1 + t]? = mid[t]? := by
  intro t ht
  rw [List.getElem?_append_right (by omega)]
  rw [show pre.length + 1 + t - pre.length = t + 1 from by omega]
  rw [List.getElem?_cons_succ]
  exact List.getElem?_append_left ht

theorem c10Step_close (pre mid post : List Char) :
    (pre ++ sq :: (mid ++ sq :: post))[pre.length + 1 + mid.length]? = some sq := by
  rw [List.getElem?_append_right (by omega)]
  rw [show pre.length + 1 + mid.length - pre.length = mid.length + 1 from by omega]
  rw [List.getElem?_cons_succ]
  rw [List.getElem?_append_right (by omega)]
  simp

theorem c10_matches (pre mid post : List Char) (hmid : ∀ c ∈ mid, c ≠ sq) :
    mtest c10Regex (pre ++ sq :: (mid ++ sq :: post)) = true := by
  set s : List Char := pre ++ sq :: (mid ++ sq :: post) with hs
  have hlen : s.length = pre.length + mid.length + post.length + 2 := by
    rw [hs]; exact c10Step_length pre mid post
  have dQ1 : Mtc true s (.rchar sq) pre.length (pre.length + 1) (mid.length + 5) :=
    mtc_chr_any (c10Step_open pre mid post) (by decide) (by omega) (by omega)
  have dStarMid : Mtc true s (.rstar (.rcls true [.single sq])) (pre.length + 1) (pre.length + 1 + mid.length) (mid.length + 5) := by
    refine mtc_star_cls_any (n := mid.length) ?_ (by omega) (by omega)
    intro t ht
    have hg : s[pre.length + 1 + t]? = mid[t]? := c10Step_mid pre mid post t ht
    refine ⟨mid[t], ?_, ?_⟩
    · rw [hg]
      exact List.getElem?_eq_getElem ht
    · exact clsMatch_not_sq (hmid _ (List.getElem_mem ht))
  have dEmptyG : Mtc true s .rempty (pre.length + 1 + mid.length) (pre.length + 1 + mid.length) (mid.length + 5) :=
    mtc_empty_any rfl (by omega)
  have dConcatG : Mtc true s (.rconcat (.rstar (.rcls true [.single sq])) .rempty)
      (pre.length + 1) (pre.length + 1 + mid.length) (mid.length + 6) :=
    mtc_concat_any dStarMid dEmptyG (by omega) (by omega)
  have dGrp : Mtc true s (.rgroup (.rconcat (.rstar (.rcls true [.single sq])) .rempty))
      (pre.length + 1) (pre.length + 1 + mid.length) (mid.length + 7) :=
    mtc_group_any dConcatG (by omega)
  have dQ2 : Mtc true s (.rchar sq) (pre.length + 1 + mid.length) (pre.length + mid.length + 2) (mid.length + 7) :=
    mtc_chr_any (c10Step_close pre mid post) (by decide) (by omega) (by omega)
  have dEmptyT : Mtc true s .rempty (pre.length + mid.length + 2) (pre.length + mid.length + 2) (mid.length + 7) :=
    mtc_empty_any rfl (by omega)
  have e1 : Mtc true s (chainOf [.rchar sq]) (pre.length + 1 + mid.length) (pre.length + mid.length + 2) (mid.length + 8) :=
    mtc_concat_any dQ2 dEmptyT (by omega) (by omega)
  have e2 : Mtc true s (chainOf [.rgroup (.rconcat (.rstar (.rcls true [.single sq])) .rempty), .rchar sq])
      (pre.length + 1) (pre.length + mid.length + 2) (mid.length + 9) :=
    mtc_concat_any dGrp e1 (by omega) (by omega)
  have dAlt2 : Mtc true s (quotedAlt sq) pre.length (pre.length + mid.length + 2) (mid.length + 10) :=
    mtc_concat_any dQ1 e2 (by omega) (by omega)
  have dAlt23 : Mtc true s (.ralt (quotedAlt sq)
      (chainOf [.rchar bq, .rgroup (.rconcat (.rstar (.rcls true [.single bq])) .rempty),
                .rchar bq, spacePlus, .rchar 'h', .rchar 'e', .rchar 'r', .rchar 'e', .reol]))
      pre.length (pre.length + mid.length + 2) (mid.length + 11) :=
    mtc_altL_any dAlt2 (by omega)
  have etop : Mtc true s c10Regex.node pre.length (pre.length + mid.length + 2) (mid.length + 12) :=
    mtc_altR_any dAlt23 (by omega)
  unfold mtest
  apply List.any_eq_true.mpr
  refine ⟨pre.length, List.mem_range.mpr (by omega), ?_⟩
  apply mtc_sound etop _ _ rfl
  have hsz : nodeSize c10Regex.node = 70 := by decide
  unfold nodeFuel
  rw [hsz, hlen]
  omega


/-- Claim C9 (confirmed): in the compiled matcher of the expression
`"I click {word}"`, each run of literal whitespace of the body matches
one-or-more whitespace characters of the scenario-step text: the matcher
accepts `I click submit` for every combination of run lengths, and in
particular accepts `I   click   submit` and `I click submit` identically. -/
theorem c9_whitespace_tolerance :
    (∀ n m : Nat, reTest c9Regex (String.mk (c9Step n m)) = true) ∧
    exprMatcher "I click {word}" = some c9Regex ∧
    reTest c9Regex "I   click   submit" = reTest c9Regex "I click submit" ∧
    reTest c9Regex "I click submit" = true := by
  refine ⟨?_, by decide, by decide, by decide⟩
  intro n m
  exact c9_matches n m

/-- Claim C10 (confirmed): the `{string}` substitution value is inserted
verbatim as an unparenthesised top-level alternation, so the `^`/`$`
anchors of the compiled pattern bind only its first and last alternatives;
consequently the matcher of `"I see {string} here"` accepts every
scenario-step text containing a single-quoted substring anywhere,
regardless of whether any of the expression's literal text occurs in it. -/
theorem c10_string_alternation_escapes_anchors (pre mid post : List Char)
    (hmid : ∀ c ∈ mid, c ≠ sq) :
    cucumberExprToRegex "I see {string} here".data =
      "^I\\s+see\\s+".data ++ stringParamVal ++ "\\s+here$".data ∧
    exprMatcher "I see {string} here" = some c10Regex ∧
    reTest c10Regex (String.mk (pre ++ sq :: (mid ++ sq :: post))) = true := by
  refine ⟨by decide, by decide, ?_⟩
  exact c10_matches pre mid post hmid

/-- Witness for C10: the step text `totally unrelated 'x' text` is accepted
by the matcher of `"I see {string} here"` although none of the
expression's words occur in it. -/
theorem c10_string_alternation_escapes_anchors_witness :
    cucumberExprToRegex "I see {string} here".data =
      "^I\\s+see\\s+".data ++ stringParamVal ++ "\\s+here$".data ∧
    exprMatcher "I see {string} here" = some c10Regex ∧
    reTest c10Regex
      (String.mk ("totally unrelated ".data ++ sq :: ("x".data ++ sq :: " text".data))) = true :=
  c10_string_alternation_escapes_anchors "totally unrelated ".data "x".data " text".data
    (by decide)

end FindUnused
